import Mathlib

/-!
# Equal-weighted top-100 index pipeline — verification development

Shallow embedding of `compute_index100.py` and `database.py`.

Modelling conventions:
* Dates are `"YYYY-MM-DD"` strings in the source and are compared by SQLite's
  lexicographic TEXT collation (and by Python's string order), which on the
  fixed format coincides with chronological order; we model dates by their
  order type `ℕ`.  Ticker symbols are likewise compared lexicographically by
  Python's `sorted`; we model them by `ℕ` as well.
* Prices, share counts, quantities and index values are floats in the source;
  they are modelled over exact rationals `ℚ`.
* Each SQLite table is a list of rows in table-scan (rowid) order.
  `INSERT OR REPLACE` deletes the row with a conflicting primary key and
  appends the replacement at the end.
* Python exceptions (`ZeroDivisionError`, `KeyError`, tenacity's retry
  exhaustion) are modelled with `Except`.
-/

/-- A calendar date (order type of the `"YYYY-MM-DD"` strings). -/
abbrev Date := ℕ

/-- A ticker symbol (order type of the symbol strings under `sorted`). -/
abbrev Ticker := ℕ

/-- Row of `quarterly_shares`, PRIMARY KEY `(ticker, report_date)`. -/
structure QSRow where
  ticker : Ticker
  report_date : Date
  shares_outstanding : ℚ
deriving DecidableEq

/-- Row of `market_caps`, PRIMARY KEY `(date, ticker)`. -/
structure MCRow where
  date : Date
  ticker : Ticker
  shares_outstanding : ℚ
  closing_price : ℚ
  market_cap : ℚ
deriving DecidableEq

/-- Row of `index_composition`, PRIMARY KEY `(date, ticker)`. -/
structure CompRow where
  date : Date
  ticker : Ticker
  ticker_qty : ℚ
deriving DecidableEq

/-- Row of `index_performance`, PRIMARY KEY `date`. -/
structure IVRow where
  date : Date
  index_value : ℚ
deriving DecidableEq

/-- The persistent store: the four tables of `database.py`. -/
structure DB where
  quarterly_shares : List QSRow
  market_caps : List MCRow
  index_composition : List CompRow
  index_performance : List IVRow
deriving DecidableEq

/-- `INSERT OR REPLACE` of a single row: the row with the same primary key (if
any) is deleted, and the new row is appended at the end of the table. -/
def upsertBy {α κ : Type} [DecidableEq κ] (key : α → κ) (l : List α) (r : α) : List α :=
  l.filter (fun x => key x ≠ key r) ++ [r]

/-- `executemany` of `INSERT OR REPLACE`: rows are upserted in order. -/
def upsertAll {α κ : Type} [DecidableEq κ] (key : α → κ) (l : List α) (rs : List α) : List α :=
  rs.foldl (upsertBy key) l

def qsKey (r : QSRow) : Ticker × Date := (r.ticker, r.report_date)

def mcKey (r : MCRow) : Date × Ticker := (r.date, r.ticker)

def compKey (r : CompRow) : Date × Ticker := (r.date, r.ticker)

def ivKey (r : IVRow) : Date := r.date

/-- `MarketDataConn.store_quarterly_shares`. -/
def store_quarterly_shares (db : DB) (data : List QSRow) : DB :=
  { db with quarterly_shares := upsertAll qsKey db.quarterly_shares data }

/-- `MarketDataConn.store_market_data`. -/
def store_market_data (db : DB) (market_data : List MCRow) : DB :=
  { db with market_caps := upsertAll mcKey db.market_caps market_data }

/-- `MarketDataConn.store_new_composition`. -/
def store_new_composition (db : DB) (data : List CompRow) : DB :=
  { db with index_composition := upsertAll compKey db.index_composition data }

/-- `MarketDataConn.store_index_value`. -/
def store_index_value (db : DB) (date : Date) (index_value : ℚ) : DB :=
  { db with index_performance := upsertBy ivKey db.index_performance ⟨date, index_value⟩ }

/-- The `market_caps` rows selected by `WHERE date = ?`. -/
def rowsAtDate (db : DB) (date : Date) : List MCRow :=
  db.market_caps.filter (fun r => r.date = date)

/-- `ORDER BY market_cap DESC` as a relation on rows. -/
def mcapGE (a b : MCRow) : Prop := b.market_cap ≤ a.market_cap

instance : DecidableRel mcapGE := fun a b => inferInstanceAs (Decidable (b.market_cap ≤ a.market_cap))

instance : IsTotal MCRow mcapGE := ⟨fun a b => le_total b.market_cap a.market_cap⟩

instance : IsTrans MCRow mcapGE := ⟨fun _ _ _ h1 h2 => le_trans h2 h1⟩

/-- The date's `market_caps` rows in `ORDER BY market_cap DESC` order
(SQLite's sorter realised as a stable sort, preserving table order on ties). -/
def rankedByMcap (db : DB) (date : Date) : List MCRow :=
  List.insertionSort mcapGE (rowsAtDate db date)

/-- `MarketDataConn.get_top_100_stocks`: `SELECT ticker FROM market_caps WHERE
date = ? ORDER BY market_cap DESC LIMIT 100`, then Python's
`sorted(...)` over the fetched tickers (ascending symbol order). -/
def get_top_100_stocks (db : DB) (date : Date) : List Ticker :=
  List.insertionSort (· ≤ ·) (((rankedByMcap db date).take 100).map (·.ticker))

/-- The scalar subquery `SELECT MAX(date) FROM index_composition WHERE date < ?`
(`NULL`, i.e. `none`, when no strictly earlier composition date exists). -/
def maxCompDateBefore (db : DB) (date : Date) : Option Date :=
  ((db.index_composition.filter (fun r => r.date < date)).map (·.date)).max?

/-- `MarketDataConn.get_previous_top_100`: tickers of the composition rows at
the maximal composition date strictly before `date`, sorted ascending; `[]`
when the subquery is `NULL` (comparison with `NULL` matches no row). -/
def get_previous_top_100 (db : DB) (date : Date) : List Ticker :=
  match maxCompDateBefore db date with
  | none => []
  | some m =>
      List.insertionSort (· ≤ ·)
        ((db.index_composition.filter (fun r => r.date = m)).map (·.ticker))

/-- `MarketDataConn.fetch_recent_composition`: the `(ticker, ticker_qty)` pairs
of the composition rows at the maximal composition date strictly before
`date`, in table order. -/
def fetch_recent_composition (db : DB) (date : Date) : List (Ticker × ℚ) :=
  match maxCompDateBefore db date with
  | none => []
  | some m =>
      (db.index_composition.filter (fun r => r.date = m)).map (fun r => (r.ticker, r.ticker_qty))

/-- `ORDER BY report_date DESC` on `quarterly_shares` rows. -/
def rdateGE (a b : QSRow) : Prop := b.report_date ≤ a.report_date

instance : DecidableRel rdateGE := fun a b => inferInstanceAs (Decidable (b.report_date ≤ a.report_date))

/-- `MarketDataConn.fetch_outstanding_shares` for one ticker: most recent
`shares_outstanding` with `report_date ≤ date` (`ORDER BY report_date DESC
LIMIT 1`), `none` when no such row exists. -/
def fetch_outstanding_shares (db : DB) (date : Date) (ticker : Ticker) : Option ℚ :=
  ((List.insertionSort rdateGE
      (db.quarterly_shares.filter (fun r => r.ticker = ticker ∧ r.report_date ≤ date))).head?).map
    (·.shares_outstanding)

/-- The ticker → closing-price dictionary built by `fetch_closing_prices`. -/
abbrev Prices := List (Ticker × ℚ)

/-- Python `prices[t]` lookup soft form: `dict.get`-like access. -/
def priceOf (prices : Prices) (t : Ticker) : Option ℚ :=
  prices.lookup t

/-- The exceptions the pipeline can raise: `ZeroDivisionError`, `KeyError`,
and tenacity's retry-exhaustion error from `_yf_download_helper`. -/
inductive PyErr where
  | zeroDiv
  | keyError
  | retryExhausted
deriving DecidableEq

/-- `ComputeIndex100.fetch_market_data`: for each universe ticker having both a
known shares-outstanding value (most recent `report_date ≤ date`) and a price,
one `market_caps` row with `market_cap = closing_price × shares_outstanding`;
tickers missing either input are skipped (logged in the source). -/
def fetch_market_data (db : DB) (date : Date) (prices : Prices) (tickers : List Ticker) :
    List MCRow :=
  tickers.filterMap (fun t =>
    match fetch_outstanding_shares db date t, priceOf prices t with
    | some s, some p => some ⟨date, t, s, p, p * s⟩
    | _, _ => none)

/-- The loop body of `ComputeIndex100.rebalance_index`: one composition row
`(date, ticker, (weight × curr_index_value) / prices[ticker])` per ticker.
`prices[ticker]` raises `KeyError` when absent; dividing by a zero price
raises `ZeroDivisionError`. -/
def rebalance_rows (date : Date) (prices : Prices) (weight curr_index_value : ℚ) :
    List Ticker → Except PyErr (List CompRow)
  | [] => .ok []
  | t :: ts =>
    match priceOf prices t with
    | none => .error .keyError
    | some p =>
      if p = 0 then .error .zeroDiv
      else
        match rebalance_rows date prices weight curr_index_value ts with
        | .error e => .error e
        | .ok rest => .ok (⟨date, t, (weight * curr_index_value) / p⟩ :: rest)

/-- `ComputeIndex100.rebalance_index`: `weight = 1/len(new_top_100)` (a
`ZeroDivisionError` when the list is empty), then one row per ticker of the
new top-100.  The caller stores the resulting rows. -/
def rebalance_index (date : Date) (prices : Prices) (new_top_100 : List Ticker)
    (curr_index_value : ℚ) : Except PyErr (List CompRow) :=
  if new_top_100.length = 0 then .error .zeroDiv
  else rebalance_rows date prices (1 / (new_top_100.length : ℚ)) curr_index_value new_top_100

/-- `set(prev_top_100) - set(new_top_100)`, kept as a list; only its
(non-)emptiness is consumed by `track_composition_changes`. -/
def removedStocks (prev_top_100 new_top_100 : List Ticker) : List Ticker :=
  prev_top_100.filter (fun t => t ∉ new_top_100)

/-- `ComputeIndex100.track_composition_changes`: rebalance and store the new
composition exactly when some stock was removed or no prior composition
exists (`len(prev_top_100) == 0`). -/
def track_composition_changes (db : DB) (date : Date) (prices : Prices)
    (prev_top_100 new_top_100 : List Ticker) (curr_index_value : ℚ) : Except PyErr DB :=
  if removedStocks prev_top_100 new_top_100 ≠ [] ∨ prev_top_100.length = 0 then
    match rebalance_index date prices new_top_100 curr_index_value with
    | .error e => .error e
    | .ok comps => .ok (store_new_composition db comps)
  else .ok db

/-- The accumulation loop of `ComputeIndex100.dump_index_value`:
`curr_index_value += prices[ticker] * ticker_qty` over the most recent
composition (`prices[ticker]` raises `KeyError` when absent; the sum is over
exact rationals, so the accumulation order is immaterial). -/
def sumHoldings (prices : Prices) : List (Ticker × ℚ) → Except PyErr ℚ
  | [] => .ok 0
  | tq :: rest =>
    match priceOf prices tq.1 with
    | none => .error .keyError
    | some p =>
      match sumHoldings prices rest with
      | .error e => .error e
      | .ok s => .ok (p * tq.2 + s)

/-- Lines 285–293 of `compute_index100.py`: the current index value is the
most recent composition revalued at today's prices, or the base value 10000
when no prior composition exists. -/
def currentIndexValue (db : DB) (date : Date) (prices : Prices) : Except PyErr ℚ :=
  let recent := fetch_recent_composition db date
  if recent.isEmpty then .ok 10000
  else sumHoldings prices recent

/-- `ComputeIndex100.dump_index_value`: compute the current index value, track
composition changes (rebalancing and storing a new snapshot if required), and
store the index value for the date. -/
def dump_index_value (db : DB) (date : Date) (prices : Prices)
    (prev_top_100 new_top_100 : List Ticker) : Except PyErr (DB × ℚ) :=
  match currentIndexValue db date prices with
  | .error e => .error e
  | .ok curr_index_value =>
    match track_composition_changes db date prices prev_top_100 new_top_100 curr_index_value with
    | .error e => .error e
    | .ok db1 => .ok (store_index_value db1 date curr_index_value, curr_index_value)

/-- The external price provider, one call per (chunk, attempt); `none` models
the provider signalling a rate-limit condition (`yf.shared._ERRORS`
non-empty after the download), `some rows` a successful chunk download. -/
abbrev Provider := List Ticker → ℕ → Option (List (Ticker × ℚ))

/-- The tenacity retry loop around `_yf_download_helper`
(`stop_after_attempt(10)`): try successive attempts while rate-limited,
raising a retries-exhausted error once the attempt budget is spent. -/
def yf_attempts (provider : Provider) (chunk : List Ticker) :
    ℕ → ℕ → Except PyErr (List (Ticker × ℚ))
  | _, 0 => .error .retryExhausted
  | i, n + 1 =>
    match provider chunk i with
    | some rows => .ok rows
    | none => yf_attempts provider chunk (i + 1) n

/-- `ComputeIndex100._yf_download_helper`: up to 10 attempts for one chunk. -/
def yf_download_helper (provider : Provider) (chunk : List Ticker) :
    Except PyErr (List (Ticker × ℚ)) :=
  yf_attempts provider chunk 0 10

/-- `[tickers[i:i+max_chunk_len] for i in range(0, len(tickers), max_chunk_len)]`. -/
def chunksOf (n : ℕ) (tickers : List Ticker) : List (List Ticker) :=
  (List.range ((tickers.length + (n - 1)) / n)).map (fun i => (tickers.drop (i * n)).take n)

/-- The sequential per-chunk download loop of `ComputeIndex100.yf_downloader`;
the first chunk whose retries are exhausted aborts the whole download, and
successful chunk frames are concatenated (`pd.concat`). -/
def downloadChunks (provider : Provider) : List (List Ticker) → Except PyErr (List (Ticker × ℚ))
  | [] => .ok []
  | c :: cs =>
    match yf_download_helper provider c with
    | .error e => .error e
    | .ok rows =>
      match downloadChunks provider cs with
      | .error e => .error e
      | .ok rest => .ok (rows ++ rest)

/-- `ComputeIndex100.yf_downloader` with the fixed chunk size 20. -/
def yf_downloader (provider : Provider) (tickers : List Ticker) :
    Except PyErr (List (Ticker × ℚ)) :=
  downloadChunks provider (chunksOf 20 tickers)

/-- `ComputeIndex100.fetch_closing_prices`: the chunked download for the run
date's one-day window, exposed as the ticker → closing-price dictionary. -/
def fetch_closing_prices (provider : Provider) (tickers : List Ticker) : Except PyErr Prices :=
  yf_downloader provider tickers

/-- The run's external inputs: the trading-day signal, the constituent
universe (symbols already normalised), the quarterly-refresh flag, the
flattened quarterly-shares fetch result, and the price provider. -/
structure Env where
  tradingDay : Bool
  tickers : List Ticker
  fetchQuarterly : Bool
  quarterlyRows : List QSRow
  provider : Provider

/-- `fetch_and_store_all_quarterly_shares`, run when `fetch_quarterly_results`
is set: the flattened fetch results are stored when non-empty. -/
def quarterlyStep (env : Env) (db : DB) : DB :=
  if env.fetchQuarterly ∧ env.quarterlyRows ≠ [] then
    store_quarterly_shares db env.quarterlyRows
  else db

/-- The store state after the quarterly refresh and the market-data write of
`compute_index_value`, i.e. just before the top-100 queries. -/
def pipeline_mid (env : Env) (date : Date) (prices : Prices) (db : DB) : DB :=
  let db1 := quarterlyStep env db
  store_market_data db1 (fetch_market_data db1 date prices env.tickers)

/-- `ComputeIndex100.compute_index_value`, the full daily pipeline.  The
result is the persistent state left behind by the run together with the
exception aborting it, if any (writes performed before the raise persist,
as they do against the real SQLite store). -/
def compute_index_value (env : Env) (date : Date) (db : DB) : DB × Option PyErr :=
  if env.tradingDay then
    let db1 := quarterlyStep env db
    match fetch_closing_prices env.provider env.tickers with
    | .error e => (db1, some e)
    | .ok prices =>
      let db2 := pipeline_mid env date prices db
      match dump_index_value db2 date prices (get_previous_top_100 db2 date)
          (get_top_100_stocks db2 date) with
      | .error e => (db2, some e)
      | .ok (db3, _) => (db3, none)
  else (db, none)

/-- The stored index value for a date (unique row once written via upsert). -/
def indexValueAt (db : DB) (date : Date) : Option ℚ :=
  ((db.index_performance.filter (fun r => r.date = date)).map (·.index_value)).head?

/-- The stored market cap of a ticker on a date. -/
def marketCapAt (db : DB) (date : Date) (t : Ticker) : Option ℚ :=
  ((db.market_caps.filter (fun r => r.date = date ∧ r.ticker = t)).map (·.market_cap)).head?


/-! ## Concrete instances used to exercise the development -/

/-- The empty store. -/
def dbEmpty : DB := ⟨[], [], [], []⟩

/-- A store holding one shares observation: ticker 0 reported 5 shares
outstanding on date 0. -/
def dbShares : DB := ⟨[⟨0, 0, 5⟩], [], [], []⟩

/-- A store with two market-cap rows on date 1: ticker 0 with market cap 1,
ticker 1 with market cap 2. -/
def dbTwoCaps : DB := ⟨[], [⟨1, 0, 1, 1, 1⟩, ⟨1, 1, 1, 2, 2⟩], [], []⟩

/-- A store with one composition row: date 0, ticker 7, quantity 3. -/
def dbOneComp : DB := ⟨[], [], [⟨0, 7, 3⟩], []⟩

/-- A store offering shares for ticker 0 and a prior (date-0) composition
holding 2 units of ticker 0, with index value 20 recorded on date 0. -/
def dbPrior : DB := ⟨[⟨0, 0, 5⟩], [], [⟨0, 0, 2⟩], [⟨0, 20⟩]⟩

/-- A provider that always signals a rate-limit condition. -/
def provNone : Provider := fun _ _ => none

/-- A provider whose every chunk download succeeds with the single price
row (ticker 0, price 1). -/
def provOne : Provider := fun _ _ => some [(0, 1)]

/-- A provider whose downloads succeed but return no price rows. -/
def provEmptyRows : Provider := fun _ _ => some []

/-- A holiday run environment. -/
def envHoliday : Env := ⟨false, [0], false, [], provNone⟩

/-- A trading-day environment whose provider is always rate-limited. -/
def envRateLimited : Env := ⟨true, [0], false, [], provNone⟩

/-- A trading-day environment for the universe consisting of ticker 0 with
closing price 1. -/
def envOne : Env := ⟨true, [0], false, [], provOne⟩

/-- A trading-day environment with an empty universe (the provider succeeds
with no rows). -/
def envEmptyUniverse : Env := ⟨true, [], false, [], provEmptyRows⟩

/-! ## Generic facts about the INSERT OR REPLACE table model -/

theorem upsertAll_eq {α κ : Type} [DecidableEq κ] (key : α → κ) (rs : List α) :
    ∀ L : List α, upsertAll key L rs
      = L.filter (fun x => decide (key x ∉ rs.map key)) ++ upsertAll key [] rs := by
  induction rs with
  | nil => intro L; simp [upsertAll]
  | cons r rs ih =>
    intro L
    have h1 : upsertAll key L (r :: rs) = upsertAll key (upsertBy key L r) rs := rfl
    have h2 : upsertAll key [] (r :: rs) = upsertAll key (upsertBy key [] r) rs := rfl
    have h3 : upsertBy key [] r = [r] := rfl
    rw [h1, ih (upsertBy key L r), h2, h3, ih [r], upsertBy,
      List.filter_append, List.filter_filter, List.append_assoc]
    congr 1
    apply List.filter_congr
    intro x _
    by_cases hr : key x = key r
    · simp [hr]
    · by_cases hm : key x ∈ rs.map key <;> simp [hr, hm]

theorem mem_of_mem_upsertAll {α κ : Type} [DecidableEq κ] {key : α → κ} {rs : List α} :
    ∀ {L : List α} {x : α}, x ∈ upsertAll key L rs → x ∈ L ∨ x ∈ rs := by
  induction rs with
  | nil => intro L x h; exact Or.inl h
  | cons r rs ih =>
    intro L x h
    have h1 : upsertAll key L (r :: rs) = upsertAll key (upsertBy key L r) rs := rfl
    rw [h1] at h
    rcases ih h with h2 | h2
    · rcases List.mem_append.mp h2 with h3 | h3
      · exact Or.inl (List.mem_filter.mp h3).1
      · simp only [List.mem_singleton] at h3
        exact Or.inr (by simp [h3])
    · exact Or.inr (List.mem_cons_of_mem _ h2)

theorem upsertAll_idem {α κ : Type} [DecidableEq κ] (key : α → κ) (L rs : List α) :
    upsertAll key (upsertAll key L rs) rs = upsertAll key L rs := by
  rw [upsertAll_eq key rs (upsertAll key L rs), upsertAll_eq key rs L]
  congr 1
  rw [List.filter_append, List.filter_filter]
  have h1 : (upsertAll key [] rs).filter (fun x => decide (key x ∉ rs.map key)) = [] := by
    rw [List.filter_eq_nil_iff]
    intro a ha
    have := mem_of_mem_upsertAll ha
    simp only [List.not_mem_nil, false_or] at this
    simp [List.mem_map]
    exact ⟨a, this, rfl⟩
  rw [h1, List.append_nil]
  apply List.filter_congr
  intro x _
  by_cases hm : key x ∈ rs.map key <;> simp [hm]

theorem filter_upsertAll {α κ : Type} [DecidableEq κ] (key : α → κ) (p : α → Bool) (L rs : List α)
    (hrs : ∀ r ∈ rs, p r = false) (hkey : ∀ x, p x = true → key x ∉ rs.map key) :
    (upsertAll key L rs).filter p = L.filter p := by
  rw [upsertAll_eq key rs L, List.filter_append, List.filter_filter]
  have h1 : (upsertAll key [] rs).filter p = [] := by
    rw [List.filter_eq_nil_iff]
    intro a ha
    have := mem_of_mem_upsertAll ha
    simp only [List.not_mem_nil, false_or] at this
    simp [hrs a this]
  rw [h1, List.append_nil]
  apply List.filter_congr
  intro x _
  by_cases hp : p x = true
  · simp [hp, hkey x hp]
  · simp at hp
    simp [hp]

theorem upsertBy_idem {α κ : Type} [DecidableEq κ] (key : α → κ) (L : List α) (r : α) :
    upsertBy key (upsertBy key L r) r = upsertBy key L r := by
  unfold upsertBy
  rw [List.filter_append, List.filter_filter]
  have h1 : ([r].filter fun x => decide ¬key x = key r) = [] := by simp
  rw [h1, List.append_nil]
  congr 1
  apply List.filter_congr
  intro x _
  by_cases h : key x = key r <;> simp [h]

theorem mem_upsertAll_of_not_key {α κ : Type} [DecidableEq κ] {key : α → κ} {rs : List α} :
    ∀ {L : List α} {x : α}, x ∈ L → (∀ r ∈ rs, key r ≠ key x) → x ∈ upsertAll key L rs := by
  induction rs with
  | nil => intro L x h _; exact h
  | cons r rs ih =>
    intro L x h hk
    have h1 : upsertAll key L (r :: rs) = upsertAll key (upsertBy key L r) rs := rfl
    rw [h1]
    apply ih
    · apply List.mem_append_left
      rw [List.mem_filter]
      refine ⟨h, ?_⟩
      simp
      exact fun hc => (hk r (List.mem_cons_self r rs)) hc.symm
    · exact fun r' hr' => hk r' (List.mem_cons_of_mem _ hr')

theorem mem_upsertAll_of_uniform {α κ : Type} [DecidableEq κ] {key : α → κ} {rs : List α} :
    ∀ {L : List α} {x : α}, x ∈ rs → (∀ r' ∈ rs, key r' = key x → r' = x) →
      x ∈ upsertAll key L rs := by
  induction rs with
  | nil => intro L x h _; exact absurd h (List.not_mem_nil x)
  | cons r rs ih =>
    intro L x h huniq
    have h1 : upsertAll key L (r :: rs) = upsertAll key (upsertBy key L r) rs := rfl
    rw [h1]
    by_cases hx : x ∈ rs
    · exact ih hx (fun r' hr' => huniq r' (List.mem_cons_of_mem _ hr'))
    · have hxr : x = r := by
        rcases List.mem_cons.mp h with h2 | h2
        · exact h2
        · exact absurd h2 hx
      subst hxr
      apply mem_upsertAll_of_not_key
      · exact List.mem_append_right _ (List.mem_singleton_self x)
      · intro r' hr' hc
        exact hx (huniq r' (List.mem_cons_of_mem _ hr') hc ▸ hr')

/-! ## Projections of the store operations -/

@[simp] theorem store_quarterly_shares_qs (db : DB) (q : List QSRow) :
    (store_quarterly_shares db q).quarterly_shares = upsertAll qsKey db.quarterly_shares q := rfl

@[simp] theorem store_quarterly_shares_mc (db : DB) (q : List QSRow) :
    (store_quarterly_shares db q).market_caps = db.market_caps := rfl

@[simp] theorem store_quarterly_shares_ic (db : DB) (q : List QSRow) :
    (store_quarterly_shares db q).index_composition = db.index_composition := rfl

@[simp] theorem store_quarterly_shares_ip (db : DB) (q : List QSRow) :
    (store_quarterly_shares db q).index_performance = db.index_performance := rfl

@[simp] theorem store_market_data_qs (db : DB) (md : List MCRow) :
    (store_market_data db md).quarterly_shares = db.quarterly_shares := rfl

@[simp] theorem store_market_data_mc (db : DB) (md : List MCRow) :
    (store_market_data db md).market_caps = upsertAll mcKey db.market_caps md := rfl

@[simp] theorem store_market_data_ic (db : DB) (md : List MCRow) :
    (store_market_data db md).index_composition = db.index_composition := rfl

@[simp] theorem store_market_data_ip (db : DB) (md : List MCRow) :
    (store_market_data db md).index_performance = db.index_performance := rfl

@[simp] theorem store_new_composition_qs (db : DB) (c : List CompRow) :
    (store_new_composition db c).quarterly_shares = db.quarterly_shares := rfl

@[simp] theorem store_new_composition_mc (db : DB) (c : List CompRow) :
    (store_new_composition db c).market_caps = db.market_caps := rfl

@[simp] theorem store_new_composition_ic (db : DB) (c : List CompRow) :
    (store_new_composition db c).index_composition = upsertAll compKey db.index_composition c := rfl

@[simp] theorem store_new_composition_ip (db : DB) (c : List CompRow) :
    (store_new_composition db c).index_performance = db.index_performance := rfl

@[simp] theorem store_index_value_qs (db : DB) (d : Date) (v : ℚ) :
    (store_index_value db d v).quarterly_shares = db.quarterly_shares := rfl

@[simp] theorem store_index_value_mc (db : DB) (d : Date) (v : ℚ) :
    (store_index_value db d v).market_caps = db.market_caps := rfl

@[simp] theorem store_index_value_ic (db : DB) (d : Date) (v : ℚ) :
    (store_index_value db d v).index_composition = db.index_composition := rfl

@[simp] theorem store_index_value_ip (db : DB) (d : Date) (v : ℚ) :
    (store_index_value db d v).index_performance = upsertBy ivKey db.index_performance ⟨d, v⟩ := rfl

@[simp] theorem quarterlyStep_qs (env : Env) (db : DB) :
    (quarterlyStep env db).quarterly_shares
      = if env.fetchQuarterly ∧ env.quarterlyRows ≠ [] then
          upsertAll qsKey db.quarterly_shares env.quarterlyRows
        else db.quarterly_shares := by
  unfold quarterlyStep; split <;> rfl

@[simp] theorem quarterlyStep_mc (env : Env) (db : DB) :
    (quarterlyStep env db).market_caps = db.market_caps := by
  unfold quarterlyStep; split <;> rfl

@[simp] theorem quarterlyStep_ic (env : Env) (db : DB) :
    (quarterlyStep env db).index_composition = db.index_composition := by
  unfold quarterlyStep; split <;> rfl

@[simp] theorem quarterlyStep_ip (env : Env) (db : DB) :
    (quarterlyStep env db).index_performance = db.index_performance := by
  unfold quarterlyStep; split <;> rfl

@[simp] theorem pipeline_mid_qs (env : Env) (d : Date) (p : Prices) (db : DB) :
    (pipeline_mid env d p db).quarterly_shares = (quarterlyStep env db).quarterly_shares := rfl

@[simp] theorem pipeline_mid_mc (env : Env) (d : Date) (p : Prices) (db : DB) :
    (pipeline_mid env d p db).market_caps
      = upsertAll mcKey (quarterlyStep env db).market_caps
          (fetch_market_data (quarterlyStep env db) d p env.tickers) := rfl

@[simp] theorem pipeline_mid_ic (env : Env) (d : Date) (p : Prices) (db : DB) :
    (pipeline_mid env d p db).index_composition = db.index_composition := by
  show (store_market_data _ _).index_composition = _
  rw [store_market_data_ic, quarterlyStep_ic]

@[simp] theorem pipeline_mid_ip (env : Env) (d : Date) (p : Prices) (db : DB) :
    (pipeline_mid env d p db).index_performance = db.index_performance := by
  show (store_market_data _ _).index_performance = _
  rw [store_market_data_ip, quarterlyStep_ip]

theorem DB_ext {a b : DB} (h1 : a.quarterly_shares = b.quarterly_shares)
    (h2 : a.market_caps = b.market_caps) (h3 : a.index_composition = b.index_composition)
    (h4 : a.index_performance = b.index_performance) : a = b := by
  cases a; cases b; simp_all

/-! ## Facts about the composition queries (strict date < lookups) -/

theorem maxCompDateBefore_lt {db : DB} {d m : Date} (h : maxCompDateBefore db d = some m) :
    m < d := by
  unfold maxCompDateBefore at h
  have hmem := List.max?_mem (fun a b => max_choice a b) h
  simp only [List.mem_map, List.mem_filter, decide_eq_true_eq] at hmem
  obtain ⟨r, ⟨_, hlt⟩, hdate⟩ := hmem
  exact hdate ▸ hlt

theorem maxCompDateBefore_none {db : DB} {d : Date}
    (h : ∀ r ∈ db.index_composition, ¬ r.date < d) : maxCompDateBefore db d = none := by
  unfold maxCompDateBefore
  have hnil : db.index_composition.filter (fun r => decide (r.date < d)) = [] := by
    rw [List.filter_eq_nil_iff]
    intro a ha
    simpa using h a ha
  rw [hnil]
  rfl

theorem get_previous_top_100_of_no_prior {db : DB} {d : Date}
    (h : ∀ r ∈ db.index_composition, ¬ r.date < d) : get_previous_top_100 db d = [] := by
  unfold get_previous_top_100
  rw [maxCompDateBefore_none h]

theorem fetch_recent_composition_of_no_prior {db : DB} {d : Date}
    (h : ∀ r ∈ db.index_composition, ¬ r.date < d) : fetch_recent_composition db d = [] := by
  unfold fetch_recent_composition
  rw [maxCompDateBefore_none h]

theorem comp_rows_at_max_ne_nil {db : DB} {d m : Date} (h : maxCompDateBefore db d = some m) :
    db.index_composition.filter (fun r => decide (r.date = m)) ≠ [] := by
  unfold maxCompDateBefore at h
  have hmem := List.max?_mem (fun a b => max_choice a b) h
  simp only [List.mem_map, List.mem_filter, decide_eq_true_eq] at hmem
  obtain ⟨r, ⟨hr, _⟩, hdate⟩ := hmem
  intro hnil
  rw [List.filter_eq_nil_iff] at hnil
  exact hnil r hr (by simp [hdate])

theorem fetch_recent_composition_ne_nil {db : DB} {d m : Date}
    (h : maxCompDateBefore db d = some m) : fetch_recent_composition db d ≠ [] := by
  unfold fetch_recent_composition
  rw [h]
  simpa using comp_rows_at_max_ne_nil h

theorem comp_upsert_filter_lt (ic rs : List CompRow) (d : Date)
    (hd : ∀ r ∈ rs, r.date = d) :
    (upsertAll compKey ic rs).filter (fun r => decide (r.date < d))
      = ic.filter (fun r => decide (r.date < d)) := by
  apply filter_upsertAll
  · intro r hr
    simp [hd r hr]
  · intro x hx hcon
    simp only [decide_eq_true_eq] at hx
    obtain ⟨r, hr, hk⟩ := List.mem_map.mp hcon
    have h1 : r.date = x.date := congrArg Prod.fst hk
    have h2 : r.date = d := hd r hr
    rw [h1] at h2
    rw [h2] at hx
    exact lt_irrefl d hx

theorem comp_upsert_filter_at (ic rs : List CompRow) (d m : Date) (hm : m ≠ d)
    (hd : ∀ r ∈ rs, r.date = d) :
    (upsertAll compKey ic rs).filter (fun r => decide (r.date = m))
      = ic.filter (fun r => decide (r.date = m)) := by
  apply filter_upsertAll
  · intro r hr
    simp only [decide_eq_false_iff_not, hd r hr]
    exact fun hc => hm hc.symm
  · intro x hx hcon
    simp only [decide_eq_true_eq] at hx
    obtain ⟨r, hr, hk⟩ := List.mem_map.mp hcon
    have h1 : r.date = x.date := congrArg Prod.fst hk
    exact hm (by rw [← hx, ← h1, hd r hr])

theorem comp_queries_invariant {db' db : DB} {d : Date} {rs : List CompRow}
    (hic : db'.index_composition = upsertAll compKey db.index_composition rs)
    (hd : ∀ r ∈ rs, r.date = d) :
    get_previous_top_100 db' d = get_previous_top_100 db d
      ∧ fetch_recent_composition db' d = fetch_recent_composition db d := by
  have hmax : maxCompDateBefore db' d = maxCompDateBefore db d := by
    unfold maxCompDateBefore
    rw [hic, comp_upsert_filter_lt _ _ _ hd]
  constructor
  · unfold get_previous_top_100
    rw [hmax]
    cases hcase : maxCompDateBefore db d with
    | none => rfl
    | some m =>
      have hlt : m < d := maxCompDateBefore_lt hcase
      dsimp only
      rw [hic, comp_upsert_filter_at _ _ _ _ (Nat.ne_of_lt hlt) hd]
  · unfold fetch_recent_composition
    rw [hmax]
    cases hcase : maxCompDateBefore db d with
    | none => rfl
    | some m =>
      have hlt : m < d := maxCompDateBefore_lt hcase
      dsimp only
      rw [hic, comp_upsert_filter_at _ _ _ _ (Nat.ne_of_lt hlt) hd]

/-! ## Congruence of the reads in the state they actually depend on -/

theorem fetch_outstanding_shares_congr {dbA dbB : DB}
    (h : dbA.quarterly_shares = dbB.quarterly_shares) (d : Date) (t : Ticker) :
    fetch_outstanding_shares dbA d t = fetch_outstanding_shares dbB d t := by
  unfold fetch_outstanding_shares
  rw [h]

theorem fetch_market_data_congr {dbA dbB : DB}
    (h : dbA.quarterly_shares = dbB.quarterly_shares) (d : Date) (p : Prices)
    (ts : List Ticker) : fetch_market_data dbA d p ts = fetch_market_data dbB d p ts := by
  unfold fetch_market_data
  simp only [fetch_outstanding_shares_congr h]

theorem get_top_100_stocks_congr {dbA dbB : DB} (h : dbA.market_caps = dbB.market_caps)
    (d : Date) : get_top_100_stocks dbA d = get_top_100_stocks dbB d := by
  unfold get_top_100_stocks rankedByMcap rowsAtDate
  rw [h]

theorem get_previous_top_100_congr {dbA dbB : DB}
    (h : dbA.index_composition = dbB.index_composition) (d : Date) :
    get_previous_top_100 dbA d = get_previous_top_100 dbB d := by
  unfold get_previous_top_100 maxCompDateBefore
  rw [h]

theorem fetch_recent_composition_congr {dbA dbB : DB}
    (h : dbA.index_composition = dbB.index_composition) (d : Date) :
    fetch_recent_composition dbA d = fetch_recent_composition dbB d := by
  unfold fetch_recent_composition maxCompDateBefore
  rw [h]

theorem indexValueAt_store_index_value (db : DB) (d : Date) (v : ℚ) :
    indexValueAt (store_index_value db d v) d = some v := by
  unfold indexValueAt
  rw [store_index_value_ip]
  unfold upsertBy
  rw [List.filter_append, List.filter_filter]
  have h1 : db.index_performance.filter
      (fun a => decide (a.date = d) && decide (ivKey a ≠ ivKey (⟨d, v⟩ : IVRow))) = [] := by
    rw [List.filter_eq_nil_iff]
    intro a _
    by_cases hd : a.date = d <;> simp [ivKey, hd]
  rw [h1]
  simp

/-! ## Facts about the rebalance computation -/

theorem rebalance_rows_ok (d : Date) (prices : Prices) (w v : ℚ) (l : List Ticker)
    (h : ∀ t ∈ l, ∃ p, priceOf prices t = some p ∧ p ≠ 0) :
    rebalance_rows d prices w v l
      = .ok (l.map (fun t => ⟨d, t, (w * v) / (priceOf prices t).getD 0⟩)) := by
  induction l with
  | nil => rfl
  | cons t ts ih =>
    obtain ⟨p, hp, hp0⟩ := h t (List.mem_cons_self t ts)
    have hts := ih (fun t' ht' => h t' (List.mem_cons_of_mem _ ht'))
    simp [rebalance_rows, hp, hp0, hts]

theorem rebalance_rows_spec {d : Date} {prices : Prices} {w v : ℚ} :
    ∀ {l : List Ticker} {out : List CompRow}, rebalance_rows d prices w v l = .ok out →
      List.Forall₂ (fun t r => ∃ p, priceOf prices t = some p ∧ p ≠ 0
        ∧ r = CompRow.mk d t ((w * v) / p)) l out := by
  intro l
  induction l with
  | nil =>
    intro out h
    simp only [rebalance_rows, Except.ok.injEq] at h
    rw [← h]
    exact List.Forall₂.nil
  | cons t ts ih =>
    intro out h
    unfold rebalance_rows at h
    cases hp : priceOf prices t with
    | none => rw [hp] at h; exact absurd h (by simp)
    | some p =>
      rw [hp] at h
      dsimp only at h
      by_cases hp0 : p = 0
      · rw [if_pos hp0] at h
        exact absurd h (by simp)
      · rw [if_neg hp0] at h
        cases hrec : rebalance_rows d prices w v ts with
        | error e => rw [hrec] at h; exact absurd h (by simp)
        | ok rest =>
          rw [hrec] at h
          simp only [Except.ok.injEq] at h
          rw [← h]
          exact List.Forall₂.cons ⟨p, hp, hp0, rfl⟩ (ih hrec)

theorem rebalance_rows_sum {d : Date} {prices : Prices} {w v : ℚ} {l : List Ticker}
    {out : List CompRow} (h : rebalance_rows d prices w v l = .ok out) :
    (out.map (fun r => r.ticker_qty * (priceOf prices r.ticker).getD 0)).sum
      = (out.length : ℚ) * (w * v) := by
  have hf := rebalance_rows_spec h
  clear h
  induction hf with
  | nil => simp
  | cons hr _ ih =>
    obtain ⟨p, hp, hp0, hr_eq⟩ := hr
    subst hr_eq
    simp only [List.map_cons, List.sum_cons, List.length_cons, ih, hp]
    rw [Option.getD_some, div_mul_cancel₀ _ hp0]
    push_cast
    ring

theorem rebalance_rows_dates {d : Date} {prices : Prices} {w v : ℚ} {l : List Ticker}
    {out : List CompRow} (h : rebalance_rows d prices w v l = .ok out) :
    ∀ r ∈ out, r.date = d := by
  have hf := rebalance_rows_spec h
  clear h
  induction hf with
  | nil => intro r hr; exact absurd hr (List.not_mem_nil r)
  | cons hr _ ih =>
    obtain ⟨p, hp, hp0, hr_eq⟩ := hr
    subst hr_eq
    intro r hmem
    rcases List.mem_cons.mp hmem with h1 | h1
    · rw [h1]
    · exact ih r h1

theorem rebalance_index_ok (d : Date) (prices : Prices) (nw : List Ticker) (v : ℚ)
    (hne : nw ≠ []) (h : ∀ t ∈ nw, ∃ p, priceOf prices t = some p ∧ p ≠ 0) :
    rebalance_index d prices nw v
      = .ok (nw.map (fun t => ⟨d, t, ((1 / (nw.length : ℚ)) * v) / (priceOf prices t).getD 0⟩)) := by
  unfold rebalance_index
  rw [if_neg (by simpa using hne)]
  exact rebalance_rows_ok d prices _ v nw h

theorem rebalance_index_sum {d : Date} {prices : Prices} {nw : List Ticker} {v : ℚ}
    {out : List CompRow} (h : rebalance_index d prices nw v = .ok out) :
    (out.map (fun r => r.ticker_qty * (priceOf prices r.ticker).getD 0)).sum = v := by
  unfold rebalance_index at h
  by_cases hlen : nw.length = 0
  · rw [if_pos hlen] at h
    exact absurd h (by simp)
  · rw [if_neg hlen] at h
    have hsum := rebalance_rows_sum h
    have hlen2 : out.length = nw.length := (rebalance_rows_spec h).length_eq.symm
    have hne : (nw.length : ℚ) ≠ 0 := Nat.cast_ne_zero.mpr hlen
    rw [hsum, hlen2]
    field_simp

theorem rebalance_index_dates {d : Date} {prices : Prices} {nw : List Ticker} {v : ℚ}
    {out : List CompRow} (h : rebalance_index d prices nw v = .ok out) :
    ∀ r ∈ out, r.date = d := by
  unfold rebalance_index at h
  by_cases hlen : nw.length = 0
  · rw [if_pos hlen] at h
    exact absurd h (by simp)
  · rw [if_neg hlen] at h
    exact rebalance_rows_dates h

/-! ## Facts about the index-value accumulation -/

theorem sumHoldings_ok (prices : Prices) (l : List (Ticker × ℚ))
    (h : ∀ tq ∈ l, ∃ p, priceOf prices tq.1 = some p) :
    sumHoldings prices l
      = .ok ((l.map (fun tq => (priceOf prices tq.1).getD 0 * tq.2)).sum) := by
  induction l with
  | nil => simp [sumHoldings]
  | cons tq rest ih =>
    obtain ⟨p, hp⟩ := h tq (List.mem_cons_self tq rest)
    have hrest := ih (fun tq' h' => h tq' (List.mem_cons_of_mem _ h'))
    simp [sumHoldings, hp, hrest]

/-! ## Facts about the chunked, retried download -/

theorem yf_attempts_exhausted (provider : Provider) (chunk : List Ticker) :
    ∀ (fuel i : ℕ), (∀ j, j < i + fuel → provider chunk j = none) →
      yf_attempts provider chunk i fuel = .error .retryExhausted := by
  intro fuel
  induction fuel with
  | zero => intro i _; rfl
  | succ n ih =>
    intro i h
    unfold yf_attempts
    rw [h i (by omega)]
    exact ih (i + 1) (fun j hj => h j (by omega))

theorem yf_attempts_error {provider : Provider} {chunk : List Ticker} :
    ∀ {fuel i : ℕ} {e : PyErr}, yf_attempts provider chunk i fuel = .error e →
      e = .retryExhausted := by
  intro fuel
  induction fuel with
  | zero =>
    intro i e h
    unfold yf_attempts at h
    exact (Except.error.inj h).symm
  | succ n ih =>
    intro i e h
    unfold yf_attempts at h
    cases hp : provider chunk i with
    | some rows => rw [hp] at h; exact absurd h (by simp)
    | none => rw [hp] at h; exact ih h

theorem downloadChunks_error {provider : Provider} :
    ∀ {cs : List (List Ticker)} {e : PyErr}, downloadChunks provider cs = .error e →
      e = .retryExhausted := by
  intro cs
  induction cs with
  | nil =>
    intro e h
    exact absurd h (by simp [downloadChunks])
  | cons c cs ih =>
    intro e h
    unfold downloadChunks at h
    cases hc : yf_download_helper provider c with
    | error e' =>
      rw [hc] at h
      unfold yf_download_helper at hc
      rw [← Except.error.inj h]
      exact yf_attempts_error hc
    | ok rows =>
      rw [hc] at h
      cases hrec : downloadChunks provider cs with
      | error e' =>
        rw [hrec] at h
        rw [← Except.error.inj h]
        exact ih hrec
      | ok rest => rw [hrec] at h; exact absurd h (by simp)

theorem downloadChunks_isError_of_mem {provider : Provider} {cs : List (List Ticker)}
    {c : List Ticker} (hc : c ∈ cs)
    (hfail : yf_download_helper provider c = .error .retryExhausted) :
    ∃ e, downloadChunks provider cs = .error e := by
  induction cs with
  | nil => exact absurd hc (List.not_mem_nil c)
  | cons c' cs ih =>
    unfold downloadChunks
    cases hc' : yf_download_helper provider c' with
    | error e => exact ⟨e, rfl⟩
    | ok rows =>
      rcases List.mem_cons.mp hc with h1 | h1
      · rw [h1] at hfail
        rw [hc'] at hfail
        exact absurd hfail (by simp)
      · obtain ⟨e, he⟩ := ih h1
        rw [he]
        exact ⟨e, rfl⟩

theorem yf_downloader_rate_limited {provider : Provider} {tickers : List Ticker}
    {c : List Ticker} (hc : c ∈ chunksOf 20 tickers)
    (hfail : ∀ j, j < 10 → provider c j = none) :
    yf_downloader provider tickers = .error .retryExhausted := by
  have h1 : yf_download_helper provider c = .error .retryExhausted :=
    yf_attempts_exhausted provider c 10 0 (by simpa using hfail)
  obtain ⟨e, he⟩ := downloadChunks_isError_of_mem hc h1
  have h2 := downloadChunks_error he
  unfold yf_downloader
  rw [he, h2]

theorem currentIndexValue_congr {dbA dbB : DB} {d : Date} (prices : Prices)
    (h : fetch_recent_composition dbA d = fetch_recent_composition dbB d) :
    currentIndexValue dbA d prices = currentIndexValue dbB d prices := by
  unfold currentIndexValue
  rw [h]

theorem quarterlyStep_qs_idem (env : Env) {dbA dbB : DB}
    (h : dbA.quarterly_shares = (quarterlyStep env dbB).quarterly_shares) :
    (quarterlyStep env dbA).quarterly_shares = (quarterlyStep env dbB).quarterly_shares := by
  by_cases hflag : env.fetchQuarterly ∧ env.quarterlyRows ≠ []
  · rw [quarterlyStep_qs env dbA, if_pos hflag, h, quarterlyStep_qs env dbB, if_pos hflag]
    exact upsertAll_idem qsKey dbB.quarterly_shares env.quarterlyRows
  · rw [quarterlyStep_qs env dbA, if_neg hflag, h]

theorem store_mc_idem (env : Env) (d : Date) (prices : Prices) {dbA dbB : DB}
    (hqs : dbA.quarterly_shares = (quarterlyStep env dbB).quarterly_shares)
    (hmc : dbA.market_caps = (pipeline_mid env d prices dbB).market_caps) :
    (pipeline_mid env d prices dbA).market_caps
      = (pipeline_mid env d prices dbB).market_caps := by
  have hQ := quarterlyStep_qs_idem env hqs
  have hmd : fetch_market_data (quarterlyStep env dbA) d prices env.tickers
      = fetch_market_data (quarterlyStep env dbB) d prices env.tickers :=
    fetch_market_data_congr hQ d prices env.tickers
  rw [pipeline_mid_mc env d prices dbA, hmd, quarterlyStep_mc env dbA, hmc,
    pipeline_mid_mc env d prices dbB, quarterlyStep_mc env dbB]
  exact upsertAll_idem mcKey dbB.market_caps _

/-! ## Claim theorems -/

/-- Claim C9: on a date for which the trading-day check returns false the
pipeline run terminates immediately and writes nothing to any of the four
tables — the entire persisted state is unchanged (and no error is raised). -/
theorem non_trading_day_noop (env : Env) (d : Date) (db : DB)
    (h : env.tradingDay = false) : compute_index_value env d db = (db, none) := by
  unfold compute_index_value
  rw [h]
  rfl

/-- The holiday no-op exercised at a concrete environment and store. -/
theorem non_trading_day_noop_witness :
    compute_index_value envHoliday 1 dbShares = (dbShares, none) :=
  non_trading_day_noop envHoliday 1 dbShares rfl

/-- Claim C7: when the provider signals a rate-limit condition on every one of
the 10 retry attempts for some chunk of the fixed-size-20 chunked price
fetch, the retries-exhausted error propagates out of the pipeline run for
that date (it is not swallowed), and neither an index value nor a
composition snapshot is persisted for that date. -/
theorem rate_limit_exhaustion_fatal (env : Env) (d : Date) (db : DB)
    (htd : env.tradingDay = true)
    (hfail : ∃ c ∈ chunksOf 20 env.tickers, ∀ j, j < 10 → env.provider c j = none) :
    (compute_index_value env d db).2 = some PyErr.retryExhausted
    ∧ (compute_index_value env d db).1.index_performance = db.index_performance
    ∧ (compute_index_value env d db).1.index_composition = db.index_composition := by
  obtain ⟨c, hc, hj⟩ := hfail
  have hdl : fetch_closing_prices env.provider env.tickers = .error .retryExhausted :=
    yf_downloader_rate_limited hc hj
  unfold compute_index_value
  rw [htd, hdl]
  refine ⟨rfl, ?_, ?_⟩ <;> simp

/-- The fatal rate-limit exhaustion exercised at a concrete environment. -/
theorem rate_limit_exhaustion_fatal_witness :
    (compute_index_value envRateLimited 1 dbShares).2 = some PyErr.retryExhausted
    ∧ (compute_index_value envRateLimited 1 dbShares).1.index_performance
        = dbShares.index_performance
    ∧ (compute_index_value envRateLimited 1 dbShares).1.index_composition
        = dbShares.index_composition :=
  rate_limit_exhaustion_fatal envRateLimited 1 dbShares rfl
    ⟨[0], by decide, fun _ _ => rfl⟩

/-- Claim C8: the most-recent-composition-before queries never return data
dated ≥ the probe date: every row they surface comes from a composition row
whose date is strictly smaller, and when no strictly earlier composition
date exists they return the empty result. -/
theorem strict_prior_composition_lookup (db : DB) (d : Date) :
    (∀ p ∈ fetch_recent_composition db d,
        ∃ r ∈ db.index_composition, r.date < d ∧ p = (r.ticker, r.ticker_qty))
    ∧ ((∀ r ∈ db.index_composition, ¬ r.date < d) → fetch_recent_composition db d = [])
    ∧ (∀ t ∈ get_previous_top_100 db d,
        ∃ r ∈ db.index_composition, r.date < d ∧ r.ticker = t)
    ∧ ((∀ r ∈ db.index_composition, ¬ r.date < d) → get_previous_top_100 db d = []) := by
  refine ⟨?_, fetch_recent_composition_of_no_prior, ?_, get_previous_top_100_of_no_prior⟩
  · intro p hp
    unfold fetch_recent_composition at hp
    cases hcase : maxCompDateBefore db d with
    | none => rw [hcase] at hp; exact absurd hp (List.not_mem_nil p)
    | some m =>
      rw [hcase] at hp
      dsimp only at hp
      obtain ⟨r, hr, hpr⟩ := List.mem_map.mp hp
      have hrf := List.mem_filter.mp hr
      refine ⟨r, hrf.1, ?_, hpr.symm⟩
      have hrm : r.date = m := by simpa using hrf.2
      rw [hrm]
      exact maxCompDateBefore_lt hcase
  · intro t ht
    unfold get_previous_top_100 at ht
    cases hcase : maxCompDateBefore db d with
    | none => rw [hcase] at ht; exact absurd ht (List.not_mem_nil t)
    | some m =>
      rw [hcase] at ht
      dsimp only at ht
      rw [(List.perm_insertionSort _ _).mem_iff] at ht
      obtain ⟨r, hr, hrt⟩ := List.mem_map.mp ht
      have hrf := List.mem_filter.mp hr
      refine ⟨r, hrf.1, ?_, hrt⟩
      have hrm : r.date = m := by simpa using hrf.2
      rw [hrm]
      exact maxCompDateBefore_lt hcase

/-- The strict prior-composition lookup exercised at a concrete store. -/
theorem strict_prior_composition_lookup_witness :
    ∃ r ∈ dbOneComp.index_composition, r.date < 2 ∧ ((7 : Ticker), (3 : ℚ)) = (r.ticker, r.ticker_qty) :=
  (strict_prior_composition_lookup dbOneComp 2).1 (7, 3) (by decide)

/-! ## Unfolding helpers for the engine -/

theorem currentIndexValue_of_no_recent {db : DB} {d : Date} (prices : Prices)
    (h : fetch_recent_composition db d = []) : currentIndexValue db d prices = .ok 10000 := by
  unfold currentIndexValue
  rw [h]
  rfl

theorem currentIndexValue_of_recent {db : DB} {d : Date} (prices : Prices)
    {l : List (Ticker × ℚ)} (h : fetch_recent_composition db d = l) (hne : l ≠ [])
    (hall : ∀ tq ∈ l, ∃ p, priceOf prices tq.1 = some p) :
    currentIndexValue db d prices
      = .ok ((l.map (fun tq => (priceOf prices tq.1).getD 0 * tq.2)).sum) := by
  unfold currentIndexValue
  rw [h]
  rw [if_neg (by simpa using hne)]
  exact sumHoldings_ok prices l hall

theorem track_rebalance {db : DB} {d : Date} {prices : Prices} {prev nw : List Ticker}
    {v : ℚ} {comps : List CompRow}
    (hcond : removedStocks prev nw ≠ [] ∨ prev.length = 0)
    (hreb : rebalance_index d prices nw v = .ok comps) :
    track_composition_changes db d prices prev nw v = .ok (store_new_composition db comps) := by
  unfold track_composition_changes
  rw [if_pos hcond, hreb]

theorem track_rebalance_error {db : DB} {d : Date} {prices : Prices} {prev nw : List Ticker}
    {v : ℚ} {e : PyErr}
    (hcond : removedStocks prev nw ≠ [] ∨ prev.length = 0)
    (hreb : rebalance_index d prices nw v = .error e) :
    track_composition_changes db d prices prev nw v = .error e := by
  unfold track_composition_changes
  rw [if_pos hcond, hreb]

theorem track_no_change {db : DB} {d : Date} {prices : Prices} {prev nw : List Ticker} {v : ℚ}
    (hcond : ¬(removedStocks prev nw ≠ [] ∨ prev.length = 0)) :
    track_composition_changes db d prices prev nw v = .ok db := by
  unfold track_composition_changes
  rw [if_neg hcond]

theorem track_inv {db : DB} {d : Date} {prices : Prices} {prev nw : List Ticker} {v : ℚ}
    {db1 : DB} (h : track_composition_changes db d prices prev nw v = .ok db1) :
    (¬(removedStocks prev nw ≠ [] ∨ prev.length = 0) ∧ db1 = db)
    ∨ ∃ comps, (removedStocks prev nw ≠ [] ∨ prev.length = 0)
        ∧ rebalance_index d prices nw v = .ok comps
        ∧ db1 = store_new_composition db comps := by
  unfold track_composition_changes at h
  by_cases hcond : removedStocks prev nw ≠ [] ∨ prev.length = 0
  · rw [if_pos hcond] at h
    cases hreb : rebalance_index d prices nw v with
    | error e => rw [hreb] at h; exact absurd h (by simp)
    | ok comps =>
      rw [hreb] at h
      exact Or.inr ⟨comps, hcond, rfl, (Except.ok.inj h).symm⟩
  · rw [if_neg hcond] at h
    exact Or.inl ⟨hcond, (Except.ok.inj h).symm⟩

theorem dump_eq {db : DB} {d : Date} {prices : Prices} {prev nw : List Ticker} {v : ℚ}
    {db1 : DB} (hv : currentIndexValue db d prices = .ok v)
    (ht : track_composition_changes db d prices prev nw v = .ok db1) :
    dump_index_value db d prices prev nw = .ok (store_index_value db1 d v, v) := by
  unfold dump_index_value
  rw [hv]
  dsimp only
  rw [ht]

theorem dump_error_of_track {db : DB} {d : Date} {prices : Prices} {prev nw : List Ticker}
    {v : ℚ} {e : PyErr} (hv : currentIndexValue db d prices = .ok v)
    (ht : track_composition_changes db d prices prev nw v = .error e) :
    dump_index_value db d prices prev nw = .error e := by
  unfold dump_index_value
  rw [hv]
  dsimp only
  rw [ht]

theorem dump_inv {db : DB} {d : Date} {prices : Prices} {prev nw : List Ticker}
    {out : DB × ℚ} (h : dump_index_value db d prices prev nw = .ok out) :
    ∃ v db1, currentIndexValue db d prices = .ok v
      ∧ track_composition_changes db d prices prev nw v = .ok db1
      ∧ out = (store_index_value db1 d v, v) := by
  unfold dump_index_value at h
  cases hv : currentIndexValue db d prices with
  | error e => rw [hv] at h; exact absurd h (by simp)
  | ok v =>
    rw [hv] at h
    dsimp only at h
    cases ht : track_composition_changes db d prices prev nw v with
    | error e => rw [ht] at h; exact absurd h (by simp)
    | ok db1 =>
      rw [ht] at h
      exact ⟨v, db1, rfl, ht, (Except.ok.inj h).symm⟩

theorem compute_index_value_ok_fetch {env : Env} {d : Date} {db : DB} {prices : Prices}
    (htd : env.tradingDay = true)
    (hfetch : fetch_closing_prices env.provider env.tickers = .ok prices) :
    compute_index_value env d db
      = match dump_index_value (pipeline_mid env d prices db) d prices
          (get_previous_top_100 (pipeline_mid env d prices db) d)
          (get_top_100_stocks (pipeline_mid env d prices db) d) with
        | .error e => (pipeline_mid env d prices db, some e)
        | .ok (db3, _) => (db3, none) := by
  unfold compute_index_value
  rw [htd, hfetch]
  rfl

/-- Claim C1: index-value continuity across a rebalance — whenever the
index-value step succeeds and the rebalance branch is triggered, the
composition written on the rebalance date (quantity = (weight ×
currentIndexValue) / closing price) revalues, at that date's closing
prices, to exactly the index value persisted for that date, over exact
rational arithmetic. -/
theorem rebalance_value_continuity (db : DB) (d : Date) (prices : Prices)
    (prev nw : List Ticker) (out : DB × ℚ)
    (hd : dump_index_value db d prices prev nw = .ok out)
    (htrig : removedStocks prev nw ≠ [] ∨ prev.length = 0) :
    ∃ comps, rebalance_index d prices nw out.2 = .ok comps
      ∧ (comps.map (fun r => r.ticker_qty * (priceOf prices r.ticker).getD 0)).sum = out.2
      ∧ indexValueAt out.1 d = some out.2 := by
  obtain ⟨v, db1, hv, ht, hout⟩ := dump_inv hd
  rcases track_inv ht with ⟨hncond, _⟩ | ⟨comps, _, hreb, hdb1⟩
  · exact absurd htrig hncond
  · subst hout
    exact ⟨comps, hreb, rebalance_index_sum hreb, indexValueAt_store_index_value db1 d v⟩

/-- The rebalance continuity exercised on a first-ever rebalance at base
value 10000 with a single constituent priced at 1. -/
theorem rebalance_value_continuity_witness :
    ∃ comps, rebalance_index 1 [(0, 1)] [0] (10000 : ℚ) = .ok comps
      ∧ (comps.map (fun r => r.ticker_qty * (priceOf [(0, 1)] r.ticker).getD 0)).sum = (10000 : ℚ)
      ∧ indexValueAt (DB.mk [] [] [⟨1, 0, 10000⟩] [⟨1, 10000⟩]) 1 = some 10000 :=
  rebalance_value_continuity dbEmpty 1 [(0, 1)] [] [0]
    (⟨[], [], [⟨1, 0, 10000⟩], [⟨1, 10000⟩]⟩, 10000)
    (by with_unfolding_all rfl) (Or.inr rfl)

/-- Claim C5 counterexample: the top-100 query does not return the tickers
ordered descending by market cap — with market caps 1 (ticker 0) and 2
(ticker 1) on date 1 it returns [0, 1], an ascending-by-market-cap order. -/
theorem top100_not_ordered_by_mcap :
    get_top_100_stocks dbTwoCaps 1 = [0, 1]
    ∧ marketCapAt dbTwoCaps 1 0 = some 1
    ∧ marketCapAt dbTwoCaps 1 1 = some 2
    ∧ ¬ List.Chain' (fun a b =>
          (marketCapAt dbTwoCaps 1 b).getD 0 ≤ (marketCapAt dbTwoCaps 1 a).getD 0)
        (get_top_100_stocks dbTwoCaps 1) := by
  have h1 : get_top_100_stocks dbTwoCaps 1 = [0, 1] := by with_unfolding_all rfl
  have h2 : marketCapAt dbTwoCaps 1 0 = some 1 := by with_unfolding_all rfl
  have h3 : marketCapAt dbTwoCaps 1 1 = some 2 := by with_unfolding_all rfl
  refine ⟨h1, h2, h3, ?_⟩
  rw [h1]
  intro hch
  rcases List.chain'_cons.mp hch with ⟨hr, _⟩
  rw [h2, h3] at hr
  norm_num at hr

/-- Claim C5 (amended): the top-100 query selects the (at most) 100 rows with
the largest market cap stored for the date — the result has min 100 (number
of priced rows) tickers, and every selected row's market cap is at least
every unselected row's (boundary ties resolved by table order through the
stable sort) — but returns the tickers sorted ascending by ticker symbol,
not ordered by market cap. -/
theorem top100_selection_order (db : DB) (d : Date) :
    (get_top_100_stocks db d).length = min 100 (rowsAtDate db d).length
    ∧ (get_top_100_stocks db d).Sorted (· ≤ ·)
    ∧ (get_top_100_stocks db d).Perm (((rankedByMcap db d).take 100).map (·.ticker))
    ∧ ∀ a ∈ (rankedByMcap db d).take 100, ∀ b ∈ (rankedByMcap db d).drop 100,
        b.market_cap ≤ a.market_cap := by
  refine ⟨?_, ?_, ?_, ?_⟩
  · unfold get_top_100_stocks rankedByMcap
    rw [List.length_insertionSort, List.length_map, List.length_take,
      List.length_insertionSort]
  · exact List.sorted_insertionSort _ _
  · exact List.perm_insertionSort _ _
  · intro a ha b hb
    have hs : (rankedByMcap db d).Pairwise mcapGE := by
      unfold rankedByMcap
      exact List.sorted_insertionSort mcapGE _
    rw [← List.take_append_drop 100 (rankedByMcap db d)] at hs
    exact (List.pairwise_append.mp hs).2.2 a ha b hb

/-- The top-100 selection exercised at a concrete two-row store: both rows
are selected and the result is [0, 1]. -/
theorem top100_selection_order_witness :
    (get_top_100_stocks dbTwoCaps 1).length = min 100 (rowsAtDate dbTwoCaps 1).length
    ∧ (get_top_100_stocks dbTwoCaps 1).Perm (((rankedByMcap dbTwoCaps 1).take 100).map (·.ticker)) :=
  ⟨(top100_selection_order dbTwoCaps 1).1, (top100_selection_order dbTwoCaps 1).2.2.1⟩

/-- Claim C6 counterexample: on a rebalance with two constituents the code's
equal weight is 1/2, not 1/100 — each quantity is 5000, whereas a 1/100
weight at index value 10000 and unit price would give 100. -/
theorem rebalance_weight_not_hundredth :
    rebalance_index 1 [(0, 1), (1, 1)] [0, 1] 10000
      = .ok [⟨1, 0, 5000⟩, ⟨1, 1, 5000⟩]
    ∧ (5000 : ℚ) ≠ ((1 : ℚ) / 100) * 10000 / 1 := by
  constructor
  · with_unfolding_all rfl
  · norm_num

/-- Claim C6 (amended): on every rebalance the new equal weight per
constituent is 1/n for n the size of the new top-100 list (equal to 1/100
exactly when the list has 100 entries), and every constituent's quantity is
recomputed as (weight × currentIndexValue) / currentClosingPrice — the
rebalance is a full re-weighting of all constituents. -/
theorem rebalance_equal_weights (d : Date) (prices : Prices) (nw : List Ticker) (v : ℚ)
    (hne : nw ≠ []) (hp : ∀ t ∈ nw, ∃ p, priceOf prices t = some p ∧ p ≠ 0) :
    rebalance_index d prices nw v
      = .ok (nw.map fun t =>
          ⟨d, t, ((1 / (nw.length : ℚ)) * v) / (priceOf prices t).getD 0⟩) :=
  rebalance_index_ok d prices nw v hne hp

/-- The full re-weighting exercised with a single constituent priced 2:
weight 1/1, quantity (1 × 10000) / 2 = 5000. -/
theorem rebalance_equal_weights_witness :
    rebalance_index 1 [(0, 2)] [0] 10000 = .ok [⟨1, 0, 5000⟩] := by
  rw [rebalance_equal_weights 1 [(0, 2)] [0] 10000 (by decide)
    (by
      intro t ht
      have h0 : t = 0 := by simpa using ht
      subst h0
      exact ⟨2, rfl, by norm_num⟩)]
  with_unfolding_all rfl

/-- Claim C10 counterexample: a non-empty new top-100 whose tickers all have
a price can still hit a division-by-zero — a stored closing price of 0
makes the quantity division raise. -/
theorem rebalance_zero_price_error :
    ([0] : List Ticker) ≠ []
    ∧ priceOf [(0, 0)] 0 = some 0
    ∧ rebalance_index 1 [(0, 0)] [0] 10000 = .error PyErr.zeroDiv :=
  ⟨by decide, rfl, by with_unfolding_all rfl⟩

/-- Claim C10 (amended): rebalancing is total only for a non-empty new
top-100 with nonzero prices.  An empty new top-100 raises the
division-by-zero from weight = 1/len; in particular a first run whose
market-cap table for the day is empty aborts the whole pipeline with a
division-by-zero error; and for every non-empty new top-100 whose tickers
all have a nonzero price, no such error occurs. -/
theorem rebalance_empty_div_error (env : Env) (d : Date) (db : DB) (prices : Prices)
    (nw : List Ticker) (v : ℚ) :
    (nw = [] → rebalance_index d prices nw v = .error PyErr.zeroDiv)
    ∧ ((∀ t ∈ nw, ∃ p, priceOf prices t = some p ∧ p ≠ 0) → nw ≠ [] →
        ∃ comps, rebalance_index d prices nw v = .ok comps)
    ∧ (env.tradingDay = true →
        fetch_closing_prices env.provider env.tickers = .ok prices →
        rowsAtDate (pipeline_mid env d prices db) d = [] →
        (∀ r ∈ db.index_composition, ¬ r.date < d) →
        compute_index_value env d db = (pipeline_mid env d prices db, some PyErr.zeroDiv)) := by
  refine ⟨?_, ?_, ?_⟩
  · intro hmt
    subst hmt
    rfl
  · intro hp hne
    exact ⟨_, rebalance_index_ok d prices nw v hne hp⟩
  · intro htd hfetch hrows hnoprior
    have hmid_ic : (pipeline_mid env d prices db).index_composition = db.index_composition :=
      pipeline_mid_ic env d prices db
    have hnoprior' : ∀ r ∈ (pipeline_mid env d prices db).index_composition, ¬ r.date < d := by
      rw [hmid_ic]
      exact hnoprior
    have hnw : get_top_100_stocks (pipeline_mid env d prices db) d = [] := by
      unfold get_top_100_stocks rankedByMcap
      rw [hrows]
      rfl
    have hprev : get_previous_top_100 (pipeline_mid env d prices db) d = [] :=
      get_previous_top_100_of_no_prior hnoprior'
    have hrecent : fetch_recent_composition (pipeline_mid env d prices db) d = [] :=
      fetch_recent_composition_of_no_prior hnoprior'
    have hreb : rebalance_index d prices ([] : List Ticker) 10000 = .error PyErr.zeroDiv := rfl
    have hdump : dump_index_value (pipeline_mid env d prices db) d prices
        (get_previous_top_100 (pipeline_mid env d prices db) d)
        (get_top_100_stocks (pipeline_mid env d prices db) d) = .error PyErr.zeroDiv := by
      rw [hprev, hnw]
      exact dump_error_of_track (currentIndexValue_of_no_recent prices hrecent)
        (track_rebalance_error (Or.inr rfl) hreb)
    rw [compute_index_value_ok_fetch htd hfetch, hdump]

/-- The empty-first-run division-by-zero exercised concretely: an empty
universe on a trading day with an empty store aborts with the
division-by-zero error, leaving the mid-pipeline state behind. -/
theorem rebalance_empty_div_error_witness :
    compute_index_value envEmptyUniverse 1 dbEmpty
      = (pipeline_mid envEmptyUniverse 1 [] dbEmpty, some PyErr.zeroDiv) :=
  (rebalance_empty_div_error envEmptyUniverse 1 dbEmpty [] [] 0).2.2 rfl rfl
    (by with_unfolding_all rfl) (by intro r hr; exact absurd hr (List.not_mem_nil r))

/-- Claim C2: first computed day — when the store holds no composition
snapshot dated strictly before D, a successful run for D persists index
value 10000 and writes a full composition snapshot keyed by D (one row per
top-100 ticker with quantity (1/n × 10000) / price); the rebalance is
forced although the prior top-100, hence the removed set, is empty. -/
theorem first_day_base_value (env : Env) (d : Date) (db : DB) (prices : Prices)
    (htd : env.tradingDay = true)
    (hfetch : fetch_closing_prices env.provider env.tickers = .ok prices)
    (hnoprior : ∀ r ∈ db.index_composition, ¬ r.date < d)
    (hnw : get_top_100_stocks (pipeline_mid env d prices db) d ≠ [])
    (hp : ∀ t ∈ get_top_100_stocks (pipeline_mid env d prices db) d,
        ∃ p, priceOf prices t = some p ∧ p ≠ 0) :
    ∃ dbF, compute_index_value env d db = (dbF, none)
      ∧ indexValueAt dbF d = some 10000
      ∧ get_previous_top_100 (pipeline_mid env d prices db) d = []
      ∧ ∀ t ∈ get_top_100_stocks (pipeline_mid env d prices db) d,
          (⟨d, t, ((1 / ((get_top_100_stocks (pipeline_mid env d prices db) d).length : ℚ))
              * 10000) / (priceOf prices t).getD 0⟩ : CompRow) ∈ dbF.index_composition := by
  have hnoprior' : ∀ r ∈ (pipeline_mid env d prices db).index_composition, ¬ r.date < d := by
    rw [pipeline_mid_ic]
    exact hnoprior
  have hprev : get_previous_top_100 (pipeline_mid env d prices db) d = [] :=
    get_previous_top_100_of_no_prior hnoprior'
  have hrecent : fetch_recent_composition (pipeline_mid env d prices db) d = [] :=
    fetch_recent_composition_of_no_prior hnoprior'
  have hv := currentIndexValue_of_no_recent prices hrecent
  have hreb := rebalance_index_ok d prices _ 10000 hnw hp
  have hdump : dump_index_value (pipeline_mid env d prices db) d prices
      (get_previous_top_100 (pipeline_mid env d prices db) d)
      (get_top_100_stocks (pipeline_mid env d prices db) d)
      = .ok (store_index_value
          (store_new_composition (pipeline_mid env d prices db)
            ((get_top_100_stocks (pipeline_mid env d prices db) d).map fun t =>
              ⟨d, t, ((1 / (((get_top_100_stocks (pipeline_mid env d prices db) d).length : ℚ)))
                * 10000) / (priceOf prices t).getD 0⟩)) d 10000, 10000) := by
    rw [hprev]
    exact dump_eq hv (track_rebalance (Or.inr rfl) hreb)
  refine ⟨store_index_value
      (store_new_composition (pipeline_mid env d prices db)
        ((get_top_100_stocks (pipeline_mid env d prices db) d).map fun t =>
          ⟨d, t, ((1 / (((get_top_100_stocks (pipeline_mid env d prices db) d).length : ℚ)))
            * 10000) / (priceOf prices t).getD 0⟩)) d 10000,
    ?_, indexValueAt_store_index_value _ d 10000, hprev, ?_⟩
  · rw [compute_index_value_ok_fetch htd hfetch, hdump]
  · intro t ht
    rw [store_index_value_ic, store_new_composition_ic]
    apply mem_upsertAll_of_uniform
    · exact List.mem_map_of_mem _ ht
    · rintro r' hr' hk
      obtain ⟨t', _, rfl⟩ := List.mem_map.mp hr'
      have htt : t' = t := congrArg Prod.snd hk
      rw [htt]

/-- The first computed day exercised concretely: empty composition store,
one constituent priced 1, five shares outstanding. -/
theorem first_day_base_value_witness :
    ∃ dbF, compute_index_value envOne 1 dbShares = (dbF, none)
      ∧ indexValueAt dbF 1 = some 10000
      ∧ get_previous_top_100 (pipeline_mid envOne 1 [(0, 1)] dbShares) 1 = []
      ∧ ∀ t ∈ get_top_100_stocks (pipeline_mid envOne 1 [(0, 1)] dbShares) 1,
          (⟨1, t, ((1 / ((get_top_100_stocks (pipeline_mid envOne 1 [(0, 1)] dbShares) 1).length : ℚ))
              * 10000) / (priceOf [(0, 1)] t).getD 0⟩ : CompRow) ∈ dbF.index_composition :=
  first_day_base_value envOne 1 dbShares [(0, 1)] rfl (by with_unfolding_all rfl)
    (by intro r hr; exact absurd hr (List.not_mem_nil r))
    (by
      rw [show get_top_100_stocks (pipeline_mid envOne 1 [(0, 1)] dbShares) 1 = [0] from
        by with_unfolding_all rfl]
      decide)
    (by
      rw [show get_top_100_stocks (pipeline_mid envOne 1 [(0, 1)] dbShares) 1 = [0] from
        by with_unfolding_all rfl]
      intro t ht
      have h0 : t = 0 := by simpa using ht
      subst h0
      exact ⟨1, rfl, one_ne_zero⟩)

/-- Claim C3: unchanged-composition day — when the day's top-100 set equals
the set of the most recent prior snapshot, a successful run persists as the
index value exactly the prior snapshot's quantities revalued at the day's
closing prices, and writes no composition row for the day: the composition
table is left unchanged. -/
theorem unchanged_day_revaluation (env : Env) (d : Date) (db : DB) (prices : Prices)
    (htd : env.tradingDay = true)
    (hfetch : fetch_closing_prices env.provider env.tickers = .ok prices)
    (hprev_ne : get_previous_top_100 (pipeline_mid env d prices db) d ≠ [])
    (hset : ∀ t, t ∈ get_previous_top_100 (pipeline_mid env d prices db) d ↔
        t ∈ get_top_100_stocks (pipeline_mid env d prices db) d)
    (hall : ∀ tq ∈ fetch_recent_composition (pipeline_mid env d prices db) d,
        ∃ p, priceOf prices tq.1 = some p) :
    compute_index_value env d db
      = (store_index_value (pipeline_mid env d prices db) d
          (((fetch_recent_composition (pipeline_mid env d prices db) d).map
            (fun tq => (priceOf prices tq.1).getD 0 * tq.2)).sum), none)
    ∧ (compute_index_value env d db).1.index_composition = db.index_composition
    ∧ indexValueAt (compute_index_value env d db).1 d
        = some (((fetch_recent_composition (pipeline_mid env d prices db) d).map
            (fun tq => (priceOf prices tq.1).getD 0 * tq.2)).sum) := by
  have hmax : ∃ m, maxCompDateBefore (pipeline_mid env d prices db) d = some m := by
    cases hcase : maxCompDateBefore (pipeline_mid env d prices db) d with
    | none =>
      refine absurd ?_ hprev_ne
      unfold get_previous_top_100
      rw [hcase]
    | some m => exact ⟨m, rfl⟩
  obtain ⟨m, hm⟩ := hmax
  have hrec_ne := fetch_recent_composition_ne_nil hm
  have hv := currentIndexValue_of_recent prices rfl hrec_ne hall
  have hrem : removedStocks (get_previous_top_100 (pipeline_mid env d prices db) d)
      (get_top_100_stocks (pipeline_mid env d prices db) d) = [] := by
    rw [removedStocks, List.filter_eq_nil_iff]
    intro t ht
    simp [(hset t).mp ht]
  have hlen : (get_previous_top_100 (pipeline_mid env d prices db) d).length ≠ 0 := by
    simpa [List.length_eq_zero] using hprev_ne
  have hcond : ¬(removedStocks (get_previous_top_100 (pipeline_mid env d prices db) d)
      (get_top_100_stocks (pipeline_mid env d prices db) d) ≠ []
      ∨ (get_previous_top_100 (pipeline_mid env d prices db) d).length = 0) := by
    rintro (h1 | h2)
    · exact h1 hrem
    · exact hlen h2
  have hdump := dump_eq hv (track_no_change hcond)
  rw [compute_index_value_ok_fetch htd hfetch, hdump]
  refine ⟨rfl, ?_, ?_⟩
  · dsimp only
    rw [store_index_value_ic, pipeline_mid_ic]
  · dsimp only
    exact indexValueAt_store_index_value _ d _

theorem rerun_noop_of (env : Env) (d : Date) (prices : Prices) (db0 db1 : DB) (v : ℚ)
    (henv : env.tradingDay = true)
    (hfetch : fetch_closing_prices env.provider env.tickers = .ok prices)
    (F1 : db1.quarterly_shares = (quarterlyStep env db0).quarterly_shares)
    (F2 : db1.market_caps = (pipeline_mid env d prices db0).market_caps)
    (hv : currentIndexValue (pipeline_mid env d prices db0) d prices = .ok v)
    (F4 : db1.index_performance
        = upsertBy ivKey (pipeline_mid env d prices db0).index_performance ⟨d, v⟩)
    (hbr : (¬(removedStocks (get_previous_top_100 (pipeline_mid env d prices db0) d)
              (get_top_100_stocks (pipeline_mid env d prices db0) d) ≠ []
            ∨ (get_previous_top_100 (pipeline_mid env d prices db0) d).length = 0)
          ∧ db1.index_composition = (pipeline_mid env d prices db0).index_composition)
      ∨ (∃ comps, (removedStocks (get_previous_top_100 (pipeline_mid env d prices db0) d)
              (get_top_100_stocks (pipeline_mid env d prices db0) d) ≠ []
            ∨ (get_previous_top_100 (pipeline_mid env d prices db0) d).length = 0)
          ∧ rebalance_index d prices (get_top_100_stocks (pipeline_mid env d prices db0) d) v
              = .ok comps
          ∧ db1.index_composition
              = upsertAll compKey (pipeline_mid env d prices db0).index_composition comps)) :
    compute_index_value env d db1 = (db1, none) := by
  rw [compute_index_value_ok_fetch henv hfetch]
  have hQ := quarterlyStep_qs_idem env F1
  have hmc1 : (pipeline_mid env d prices db1).market_caps
      = (pipeline_mid env d prices db0).market_caps := store_mc_idem env d prices F1 F2
  have hnw := get_top_100_stocks_congr hmc1 d
  rcases hbr with ⟨hncond, F3⟩ | ⟨comps, hcond, hreb, F3⟩
  · have hic1 : (pipeline_mid env d prices db1).index_composition
        = (pipeline_mid env d prices db0).index_composition := by
      rw [pipeline_mid_ic, F3]
    have hprev := get_previous_top_100_congr hic1 d
    have hrecent := fetch_recent_composition_congr hic1 d
    have hv1 : currentIndexValue (pipeline_mid env d prices db1) d prices = .ok v := by
      rw [currentIndexValue_congr prices hrecent]
      exact hv
    rw [hprev, hnw, dump_eq hv1 (track_no_change hncond)]
    refine congrArg (fun x => (x, none)) (DB_ext ?_ ?_ ?_ ?_)
    · rw [store_index_value_qs, pipeline_mid_qs, hQ, ← F1]
    · rw [store_index_value_mc, hmc1, ← F2]
    · rw [store_index_value_ic, pipeline_mid_ic]
    · rw [store_index_value_ip, pipeline_mid_ip, F4, upsertBy_idem]
  · have hdates := rebalance_index_dates hreb
    have hic1 : (pipeline_mid env d prices db1).index_composition
        = upsertAll compKey (pipeline_mid env d prices db0).index_composition comps := by
      rw [pipeline_mid_ic, F3, pipeline_mid_ic]
    obtain ⟨hprev, hrecent⟩ := comp_queries_invariant hic1 hdates
    have hv1 : currentIndexValue (pipeline_mid env d prices db1) d prices = .ok v := by
      rw [currentIndexValue_congr prices hrecent]
      exact hv
    rw [hprev, hnw, dump_eq hv1 (track_rebalance hcond hreb)]
    refine congrArg (fun x => (x, none)) (DB_ext ?_ ?_ ?_ ?_)
    · rw [store_index_value_qs, store_new_composition_qs, pipeline_mid_qs, hQ, ← F1]
    · rw [store_index_value_mc, store_new_composition_mc, hmc1, ← F2]
    · rw [store_index_value_ic, store_new_composition_ic, hic1, upsertAll_idem]
      exact F3.symm
    · rw [store_index_value_ip, store_new_composition_ip, pipeline_mid_ip, F4, upsertBy_idem]

/-- Claim C4: idempotent re-run — running the full daily pipeline a second
time for an already-computed date with identical external inputs leaves
every row of the four tables exactly as after the first run: all writes are
keyed upserts, and the second run's strict date < prior-composition lookups
do not see the rows the first run wrote for the date itself. -/
theorem idempotent_rerun (env : Env) (d : Date) (db0 db1 : DB)
    (h : compute_index_value env d db0 = (db1, none)) :
    compute_index_value env d db1 = (db1, none) := by
  cases henv : env.tradingDay with
  | false =>
    unfold compute_index_value
    rw [henv]
    rfl
  | true =>
    cases hfetch : fetch_closing_prices env.provider env.tickers with
    | error e =>
      unfold compute_index_value at h
      rw [henv, hfetch] at h
      simp at h
    | ok prices =>
      rw [compute_index_value_ok_fetch henv hfetch] at h
      cases hdump : dump_index_value (pipeline_mid env d prices db0) d prices
          (get_previous_top_100 (pipeline_mid env d prices db0) d)
          (get_top_100_stocks (pipeline_mid env d prices db0) d) with
      | error e =>
        rw [hdump] at h
        exact absurd (congrArg Prod.snd h) (by simp)
      | ok out =>
        obtain ⟨db3, v0⟩ := out
        rw [hdump] at h
        have hdb1 : db1 = db3 := ((Prod.mk.injEq _ _ _ _).mp h).1.symm
        rw [hdb1]
        obtain ⟨v, dbt, hv, ht, hpair⟩ := dump_inv hdump
        have hdb3 : db3 = store_index_value dbt d v := congrArg Prod.fst hpair
        rcases track_inv ht with ⟨hncond, hdbt⟩ | ⟨comps, hcond, hreb, hdbt⟩
        · exact rerun_noop_of env d prices db0 db3 v henv hfetch
            (by rw [hdb3, hdbt, store_index_value_qs, pipeline_mid_qs])
            (by rw [hdb3, hdbt, store_index_value_mc])
            hv
            (by rw [hdb3, hdbt, store_index_value_ip, pipeline_mid_ip])
            (Or.inl ⟨hncond, by rw [hdb3, hdbt, store_index_value_ic]⟩)
        · exact rerun_noop_of env d prices db0 db3 v henv hfetch
            (by rw [hdb3, hdbt, store_index_value_qs, store_new_composition_qs, pipeline_mid_qs])
            (by rw [hdb3, hdbt, store_index_value_mc, store_new_composition_mc])
            hv
            (by rw [hdb3, hdbt, store_index_value_ip, store_new_composition_ip, pipeline_mid_ip])
            (Or.inr ⟨comps, hcond, hreb,
              by rw [hdb3, hdbt, store_index_value_ic, store_new_composition_ic, pipeline_mid_ic]⟩)

/-- The idempotent re-run exercised concretely: re-running the pipeline on
the state produced by a successful first run reproduces that state. -/
theorem idempotent_rerun_witness :
    compute_index_value envOne 1
      (DB.mk [⟨0, 0, 5⟩] [⟨1, 0, 5, 1, 5⟩] [⟨1, 0, 10000⟩] [⟨1, 10000⟩])
      = (DB.mk [⟨0, 0, 5⟩] [⟨1, 0, 5, 1, 5⟩] [⟨1, 0, 10000⟩] [⟨1, 10000⟩], none) :=
  idempotent_rerun envOne 1 dbShares _ (by with_unfolding_all rfl)

/-- The unchanged-composition day exercised concretely: prior snapshot holds
2 units of ticker 0, today's price is 1, the top-100 set is unchanged; the
persisted value is the revalued snapshot and the composition table is
untouched. -/
theorem unchanged_day_revaluation_witness :
    compute_index_value envOne 1 dbPrior
      = (store_index_value (pipeline_mid envOne 1 [(0, 1)] dbPrior) 1
          (((fetch_recent_composition (pipeline_mid envOne 1 [(0, 1)] dbPrior) 1).map
            (fun tq => (priceOf [(0, 1)] tq.1).getD 0 * tq.2)).sum), none)
    ∧ (compute_index_value envOne 1 dbPrior).1.index_composition = dbPrior.index_composition
    ∧ indexValueAt (compute_index_value envOne 1 dbPrior).1 1
        = some (((fetch_recent_composition (pipeline_mid envOne 1 [(0, 1)] dbPrior) 1).map
            (fun tq => (priceOf [(0, 1)] tq.1).getD 0 * tq.2)).sum) :=
  unchanged_day_revaluation envOne 1 dbPrior [(0, 1)] rfl (by with_unfolding_all rfl)
    (by
      rw [show get_previous_top_100 (pipeline_mid envOne 1 [(0, 1)] dbPrior) 1 = [0] from
        by with_unfolding_all rfl]
      decide)
    (by
      intro t
      rw [show get_previous_top_100 (pipeline_mid envOne 1 [(0, 1)] dbPrior) 1 = [0] from
        by with_unfolding_all rfl,
        show get_top_100_stocks (pipeline_mid envOne 1 [(0, 1)] dbPrior) 1 = [0] from
        by with_unfolding_all rfl])
    (by
      rw [show fetch_recent_composition (pipeline_mid envOne 1 [(0, 1)] dbPrior) 1 = [(0, 2)] from
        by with_unfolding_all rfl]
      intro tq htq
      have h0 : tq = (0, 2) := by simpa using htq
      rw [h0]
      exact ⟨1, rfl⟩)
